import Mathlib

/-!
Verification of the ORMATEX phi-function / Krylov core against its
natural-language specification.

The repository's phi/Krylov implementation (`ormatex_py.matexp_phi`,
`ormatex_py.matexp_krylov`, `ormatex_py.ode_sys`) is exercised by
`tests/test_phi.py`; the dense-kernel and Krylov routines themselves are
modelled here from the specification, in exact real arithmetic: the value of
the phi function of a matrix is the entrywise-convergent power series
phi_k(A) = sum_m A^m / (m+k)!.  The PDE caller `AffineLinearSEM._frhs` is
embedded directly from `ormatex_py/progression/advection_diffusion_1d.py`.
-/

set_option linter.unusedSectionVars false
set_option linter.unusedVariables false

open Matrix

namespace Ormatex

variable {N : Type*} [Fintype N] [DecidableEq N]

/-- Scalar phi function: phi_k(z) = sum_m z^m / (m+k)!, the Taylor series of
(1/z^k)(e^z - sum_{j<k} z^j/j!) extended through z = 0. -/
noncomputable def phis (k : ℕ) (z : ℝ) : ℝ :=
  tsum fun m : ℕ => (((m + k).factorial : ℝ))⁻¹ * z ^ m

/-- Modelled from the spec: the exact value computed by the dense
phi-function kernel (`ormatex_py.matexp_phi.f_phi_k`, absent from src/),
namely the entrywise power series phi_k(A) = sum_m A^m / (m+k)!. -/
noncomputable def phik (k : ℕ) (A : Matrix N N ℝ) : Matrix N N ℝ :=
  Matrix.of fun i j => tsum fun m : ℕ => (((m + k).factorial : ℝ))⁻¹ * (A ^ m) i j

/-- Modelled from the spec: the reference dense matrix exponential routine
(`scipy.linalg.expm` in the tests), i.e. exp(A) = sum_m A^m / m!. -/
noncomputable def expm (A : Matrix N N ℝ) : Matrix N N ℝ :=
  Matrix.of fun i j => tsum fun m : ℕ => ((m.factorial : ℝ))⁻¹ * (A ^ m) i j

/-- Sum of the absolute values of all entries; a crude submultiplicative
bound used only to establish convergence of the series. -/
noncomputable def entryBound (A : Matrix N N ℝ) : ℝ :=
  ∑ a : N, ∑ b : N, |A a b|

/-- Modelled from the spec: the Taylor/Padé dense kernel
`ormatex_py.matexp_phi.f_phi_k` (absent from src/); its exact value is the
phi series itself. -/
noncomputable def f_phi_k (A : Matrix N N ℝ) (k : ℕ) : Matrix N N ℝ := phik k A

/-- Nilpotent shift block with ones on the superdiagonal, the
identity-like shift structure of the spec's augmented-matrix method. -/
noncomputable def Jmat (p : ℕ) : Matrix (Fin p) (Fin p) ℝ :=
  Matrix.of fun a b => if (a : ℕ) + 1 = (b : ℕ) then 1 else 0

/-- Augmentation block carrying the vector b in its first column. -/
noncomputable def Bappl (b : N → ℝ) (p : ℕ) : Matrix N (Fin p) ℝ :=
  Matrix.of fun i q => if (q : ℕ) = 0 then b i else 0

/-- Top-right block of the m-th power of the block-triangular matrix
[[A, B], [0, J]]. -/
noncomputable def Cmat {P : Type*} [Fintype P] (A : Matrix N N ℝ) (B : Matrix N P ℝ)
    (J : Matrix P P ℝ) : ℕ → Matrix N P ℝ
  | 0 => 0
  | (m + 1) => A ^ m * B + Cmat A B J m * J

/-- Modelled from the spec: `ormatex_py.matexp_phi.f_phi_k_appl` (absent from
src/) computes phi_k(A)·b through the augmented (n+k)-dimensional
block-triangular matrix [[A, B], [0, J]]: one matrix exponential of the
augmented matrix, the result read off the last column of the top-right block;
k = 0 needs no augmentation. -/
noncomputable def f_phi_k_appl (A : Matrix N N ℝ) (b : N → ℝ) : ℕ → (N → ℝ)
  | 0 => (expm A).mulVec b
  | (k + 1) => fun i =>
      expm (Matrix.fromBlocks A (Bappl b (k + 1)) 0 (Jmat (k + 1)))
        (Sum.inl i) (Sum.inr ⟨k, Nat.lt_succ_self k⟩)

/-- Block shift acting on k graded copies of the state space. -/
noncomputable def Jext (k : ℕ) : Matrix (Fin k × N) (Fin k × N) ℝ :=
  Matrix.of fun a b => if (a.1 : ℕ) + 1 = (b.1 : ℕ) ∧ a.2 = b.2 then 1 else 0

/-- Identity-like augmentation block injecting the state space at grade 0. -/
noncomputable def Bext (k : ℕ) : Matrix N (Fin k × N) ℝ :=
  Matrix.of fun i a => if (a.1 : ℕ) = 0 ∧ i = a.2 then 1 else 0

/-- Modelled from the spec: `ormatex_py.matexp_phi.f_phi_k_ext` (augmented
block-matrix dense kernel, absent from src/): build a block-triangular
augmentation of A with an identity-like shift structure encoding the k extra
orders, apply a single matrix exponential to the augmented matrix, and read
phi_k(A) off the top-right block at the last grade. -/
noncomputable def f_phi_k_ext (A : Matrix N N ℝ) : ℕ → Matrix N N ℝ
  | 0 => expm A
  | (k + 1) => Matrix.of fun i j =>
      expm (Matrix.fromBlocks A (Bext (k + 1)) 0 (Jext (k + 1)))
        (Sum.inl i) (Sum.inr (⟨k, Nat.lt_succ_self k⟩, j))

/-- One doubling step of the squaring recurrence: from the values phi_j(A),
j ≤ k, produce phi_k(2A) = 2^{-k}(phi_0(A)·phi_k(A) + Σ_{j=1}^k phi_j(A)/(k-j)!). -/
noncomputable def doubleStep (Ph : ℕ → Matrix N N ℝ) : ℕ → Matrix N N ℝ :=
  fun k => ((2 : ℝ) ^ k)⁻¹ •
    (Ph 0 * Ph k + ∑ j ∈ Finset.Icc 1 k, (((k - j).factorial : ℝ))⁻¹ • Ph j)

/-- Modelled from the spec: `ormatex_py.matexp_phi.f_phi_k_sq`
(scaling-and-squaring dense kernel, absent from src/): scale A by 2^{-s},
evaluate the phi series at the scaled argument, then apply the doubling
recurrence s times to undo the scaling. -/
noncomputable def f_phi_k_sq (s : ℕ) (A : Matrix N N ℝ) (k : ℕ) : Matrix N N ℝ :=
  (doubleStep^[s] fun j => phik j (((2 : ℝ) ^ s)⁻¹ • A)) k

/-- Stacked augmentation block for the KIOPS combined action: column q
carries the input vector b_{p-q}, so the last column holds b_1. -/
noncomputable def Bkiops (p : ℕ) (vb : ℕ → N → ℝ) : Matrix N (Fin p) ℝ :=
  Matrix.of fun i q => vb (p - (q : ℕ)) i

/-- Last standard basis vector of the augmented block. -/
noncomputable def eLast (p : ℕ) : Fin p → ℝ :=
  fun q => if (q : ℕ) = p - 1 then 1 else 0

/-- Modelled from the spec: `ormatex_py.matexp_krylov.kiops_fixedsteps`
(absent from src/) with n_steps = 1 and the Krylov projection taken at its
exact (untruncated) value: one augmented operator [[dt·A, B], [0, J]] whose B
block stacks the input vectors b_p, ..., b_1, and whose combined phi action is
the top block of its exponential applied to the seed [b_0 ; e_last].
The normalization (dt scaling only on the A block) is fixed by the
`test_kiops_fixedstep` reference combination in tests/test_phi.py. -/
noncomputable def kiops_fixedsteps (A : Matrix N N ℝ) (dt : ℝ) (p : ℕ)
    (vb : ℕ → N → ℝ) : N → ℝ :=
  fun i => (expm (Matrix.fromBlocks (dt • A) (Bkiops p vb) 0 (Jmat p))).mulVec
    (Sum.elim (vb 0) (eLast p)) (Sum.inl i)

/-- Modelled from the spec: `ormatex_py.matexp_krylov.phi_linop` (absent from
src/): given the Krylov basis V, the projected Hessenberg matrix H, and the
seed norm β produced by the Arnoldi builder, evaluate the dense phi kernel at
dt·H and project its first column back through the basis: β·V·(phi_k(dt·H)·e0). -/
noncomputable def phi_linop {d : ℕ} (V H : Matrix (Fin d) (Fin d) ℝ)
    (dt : ℝ) (β : ℝ) (k : ℕ) : Fin d → ℝ :=
  β • V.mulVec ((phik k (dt • H)).mulVec fun q => if (q : ℕ) = 0 then 1 else 0)

/-- Shallow embedding of `AffineLinearSEM._frhs`
(`ormatex_py/progression/advection_diffusion_1d.py`): computes
f = (b - A u) / Ml elementwise, then overwrites the entries at the Dirichlet
boundary indices with zero (`f.at[self.dirichlet_bd].set(0.)`). -/
noncomputable def frhs (A : Matrix N N ℝ) (Ml b : N → ℝ)
    (dirichlet_bd : Finset N) (t : ℝ) (u : N → ℝ) : N → ℝ :=
  fun i => if i ∈ dirichlet_bd then 0 else (b i - A.mulVec u i) / Ml i

/-- The 3×3 Bateman-chain test matrix of `test_kiops_fixedstep`. -/
noncomputable def batemanA : Matrix (Fin 3) (Fin 3) ℝ :=
  !![-1e-3, 1e-1, 0; 0, -1e-1, 1e1; 0, 0, -1e1]

/-- b_1 = linspace(0.2, 3.4, 3) * 0.1 from `test_kiops_fixedstep`. -/
noncomputable def batemanB1 : Fin 3 → ℝ := ![0.02, 0.18, 0.34]

/-- b_2 = linspace(0.8, 4.0, 3) * 1e-4 from `test_kiops_fixedstep`. -/
noncomputable def batemanB2 : Fin 3 → ℝ := ![0.8e-4, 2.4e-4, 4.0e-4]

/-- The input vector list [b_0 = 0, b_1, b_2] of `test_kiops_fixedstep`. -/
noncomputable def vbBateman : ℕ → Fin 3 → ℝ :=
  fun n => if n = 1 then batemanB1 else if n = 2 then batemanB2 else 0

/-- Input list [b_0 = 0, b_1 = 1] on the 1×1 state space, used to separate
the weighted and unweighted KIOPS combination formulas. -/
noncomputable def cexVb : ℕ → Fin 1 → ℝ :=
  fun n => if n = 1 then (fun _ => 1) else 0

/-- The ill-conditioned 7×7 matrix of `test_phi_badmat_1` (its last row is
all zero, so it is singular). -/
noncomputable def badmatZ : Matrix (Fin 7) (Fin 7) ℝ :=
  !![-1.09184201e1, 3.43078591e2, -1.93289917, -3.43070825e2,
       -6.12955001e1, -3.37517780e2, 1.0;
     6.86152544e2, -1.41916547e8, 7.99798095e5, 1.41913333e8,
       2.53550186e7, 1.39616326e8, 0;
     0, 9.70378373e2, -1.41912046e8, 8.00033415e5,
       1.39927532e8, -2.11273868e7, 0;
     0, 0, 7.99305627e5, -4.51157505e3,
       -7.88129051e5, 1.18992554e5, 0;
     0, 0, 0, 9.98359818e-8,
       -4.53835201e-6, 8.26712619e-7, 0;
     0, 0, 0, 0,
       8.26605711e-7, -1.41445064e-7, 0;
     0, 0, 0, 0, 0, 0, 0]

theorem entryBound_nonneg (A : Matrix N N ℝ) : 0 ≤ entryBound A :=
  Finset.sum_nonneg fun _ _ => Finset.sum_nonneg fun _ _ => abs_nonneg _

theorem sum_abs_col_le (A : Matrix N N ℝ) (j : N) :
    ∑ l : N, |A l j| ≤ entryBound A := by
  unfold entryBound
  rw [Finset.sum_comm]
  exact Finset.single_le_sum
    (fun b (_ : b ∈ Finset.univ) => Finset.sum_nonneg fun a _ => abs_nonneg (A a b))
    (Finset.mem_univ j)

theorem abs_entry_pow_le (A : Matrix N N ℝ) :
    ∀ (m : ℕ) (i j : N), |(A ^ m) i j| ≤ entryBound A ^ m := by
  intro m
  induction m with
  | zero =>
    intro i j
    simp only [pow_zero, Matrix.one_apply]
    by_cases h : i = j <;> simp [h]
  | succ m ih =>
    intro i j
    rw [pow_succ]
    calc |(A ^ m * A) i j| = |∑ l : N, (A ^ m) i l * A l j| := by rw [Matrix.mul_apply]
    _ ≤ ∑ l : N, |(A ^ m) i l * A l j| := Finset.abs_sum_le_sum_abs _ _
    _ ≤ ∑ l : N, entryBound A ^ m * |A l j| := by
        refine Finset.sum_le_sum fun l _ => ?_
        rw [abs_mul]
        exact mul_le_mul_of_nonneg_right (ih i l) (abs_nonneg _)
    _ = entryBound A ^ m * ∑ l : N, |A l j| := by rw [← Finset.mul_sum]
    _ ≤ entryBound A ^ m * entryBound A :=
        mul_le_mul_of_nonneg_left (sum_abs_col_le A j)
          (pow_nonneg (entryBound_nonneg A) m)
    _ = entryBound A ^ (m + 1) := by ring

theorem factorial_inv_le (m k : ℕ) :
    (((m + k).factorial : ℝ))⁻¹ ≤ ((m.factorial : ℝ))⁻¹ := by
  have h1 : (0 : ℝ) < (m.factorial : ℝ) := by positivity
  have h2 : (m.factorial : ℝ) ≤ ((m + k).factorial : ℝ) :=
    Nat.cast_le.mpr (Nat.factorial_le (Nat.le_add_right m k))
  exact inv_anti₀ h1 h2

theorem summable_phi_abs (k : ℕ) (A : Matrix N N ℝ) (i j : N) :
    Summable fun m : ℕ => |(((m + k).factorial : ℝ))⁻¹ * (A ^ m) i j| := by
  refine Summable.of_nonneg_of_le (fun m => abs_nonneg _) (fun m => ?_)
    (Real.summable_pow_div_factorial (entryBound A))
  rw [abs_mul, abs_inv, Nat.abs_cast, div_eq_mul_inv,
    mul_comm ((((m + k).factorial : ℝ))⁻¹)]
  exact mul_le_mul (abs_entry_pow_le A m i j) (factorial_inv_le m k)
    (by positivity) (pow_nonneg (entryBound_nonneg A) m)

theorem summable_phi (k : ℕ) (A : Matrix N N ℝ) (i j : N) :
    Summable fun m : ℕ => (((m + k).factorial : ℝ))⁻¹ * (A ^ m) i j := by
  refine Summable.of_norm ?_
  simp only [Real.norm_eq_abs]
  exact summable_phi_abs k A i j

theorem summable_phis_abs (k : ℕ) (z : ℝ) :
    Summable fun m : ℕ => |(((m + k).factorial : ℝ))⁻¹ * z ^ m| := by
  refine Summable.of_nonneg_of_le (fun m => abs_nonneg _) (fun m => ?_)
    (Real.summable_pow_div_factorial |z|)
  rw [abs_mul, abs_inv, Nat.abs_cast, abs_pow, div_eq_mul_inv,
    mul_comm ((((m + k).factorial : ℝ))⁻¹)]
  exact mul_le_mul_of_nonneg_left (factorial_inv_le m k) (by positivity)

theorem summable_phis (k : ℕ) (z : ℝ) :
    Summable fun m : ℕ => (((m + k).factorial : ℝ))⁻¹ * z ^ m := by
  refine Summable.of_norm ?_
  simp only [Real.norm_eq_abs]
  exact summable_phis_abs k z

theorem phik_apply (k : ℕ) (A : Matrix N N ℝ) (i j : N) :
    phik k A i j = tsum fun m : ℕ => (((m + k).factorial : ℝ))⁻¹ * (A ^ m) i j := rfl

theorem expm_apply (A : Matrix N N ℝ) (i j : N) :
    expm A i j = tsum fun m : ℕ => ((m.factorial : ℝ))⁻¹ * (A ^ m) i j := rfl

theorem phik_zero_eq (A : Matrix N N ℝ) : phik 0 A = expm A := by
  ext i j
  simp [phik, expm]

theorem tsum_shift (f : ℕ → ℝ) (d : ℕ) :
    (tsum fun m : ℕ => if d ≤ m then f (m - d) else 0) = tsum f := by
  have hinj : Function.Injective fun c : ℕ => c + d := add_left_injective d
  have hsupp : Function.support (fun m : ℕ => if d ≤ m then f (m - d) else 0)
      ⊆ Set.range fun c : ℕ => c + d := by
    intro m hm
    by_cases h : d ≤ m
    · exact ⟨m - d, by show m - d + d = m; omega⟩
    · simp only [Function.mem_support, if_neg h, ne_eq, not_true_eq_false] at hm
  have h := hinj.tsum_eq hsupp
  rw [← h]
  refine tsum_congr fun c => ?_
  rw [if_pos (Nat.le_add_left d c), Nat.add_sub_cancel]

theorem triple_mul_apply (U X V : Matrix N N ℝ) (i j : N) :
    (U * X * V) i j = ∑ b : N, ∑ a : N, U i a * X a b * V b j := by
  rw [Matrix.mul_apply]
  refine Finset.sum_congr rfl fun b _ => ?_
  rw [Matrix.mul_apply, Finset.sum_mul]

theorem conj_pow (V A : Matrix N N ℝ) (hV : Vᵀ * V = 1) (m : ℕ) :
    (Vᵀ * A * V) ^ m = Vᵀ * A ^ m * V := by
  have hVV : V * Vᵀ = 1 := Matrix.mul_eq_one_comm.mp hV
  induction m with
  | zero =>
    rw [pow_zero, pow_zero, Matrix.mul_one, hV]
  | succ m ih =>
    rw [pow_succ, pow_succ, ih]
    have hmid : V * (Vᵀ * (A * V)) = A * V := by
      rw [← Matrix.mul_assoc V Vᵀ, hVV, Matrix.one_mul]
    simp only [Matrix.mul_assoc]
    rw [hmid]

/-- The fundamental phi recurrence phi_{k+1}(A)·A = phi_k(A) - I/k!
(equivalently phi_k(A) = A·phi_{k+1}(A) + I/k!), obtained by shifting the
defining power series by one step. -/
theorem phik_succ_mul (k : ℕ) (A : Matrix N N ℝ) :
    phik (k + 1) A * A = phik k A - ((k.factorial : ℝ))⁻¹ • (1 : Matrix N N ℝ) := by
  ext i j
  rw [Matrix.mul_apply, Matrix.sub_apply, Matrix.smul_apply, phik_apply, smul_eq_mul]
  have hsum : ∀ l : N, Summable fun m : ℕ =>
      (((m + (k+1)).factorial : ℝ))⁻¹ * (A ^ m) i l * A l j :=
    fun l => (summable_phi (k+1) A i l).mul_right (A l j)
  have h1 : ∀ l : N, phik (k+1) A i l * A l j
      = tsum fun m : ℕ => (((m + (k+1)).factorial : ℝ))⁻¹ * (A ^ m) i l * A l j := by
    intro l
    rw [phik_apply, ← tsum_mul_right]
  have h2 : (∑ l : N, phik (k+1) A i l * A l j)
      = tsum fun m : ℕ => (((m + (k+1)).factorial : ℝ))⁻¹ * (A ^ (m+1)) i j := by
    rw [Finset.sum_congr rfl fun l _ => h1 l, ← tsum_sum fun l _ => hsum l]
    refine tsum_congr fun m => ?_
    rw [pow_succ, Matrix.mul_apply, Finset.mul_sum]
    exact Finset.sum_congr rfl fun l _ => by ring
  rw [h2]
  have h3 : (tsum fun m : ℕ => (((m + (k+1)).factorial : ℝ))⁻¹ * (A ^ (m+1)) i j)
      = tsum fun m : ℕ =>
          if 1 ≤ m then (((m + k).factorial : ℝ))⁻¹ * (A ^ m) i j else 0 := by
    rw [← tsum_shift (fun r : ℕ => (((r + (k+1)).factorial : ℝ))⁻¹ * (A ^ (r+1)) i j) 1]
    refine tsum_congr fun m => ?_
    by_cases h : 1 ≤ m
    · rw [if_pos h, if_pos h, show m - 1 + (k + 1) = m + k by omega,
        show m - 1 + 1 = m by omega]
    · rw [if_neg h, if_neg h]
  rw [h3]
  have h4 := tsum_eq_add_tsum_ite (summable_phi k A i j) 0
  have h5 : (tsum fun m : ℕ =>
        if m = 0 then 0 else (((m + k).factorial : ℝ))⁻¹ * (A ^ m) i j)
      = tsum fun m : ℕ =>
        if 1 ≤ m then (((m + k).factorial : ℝ))⁻¹ * (A ^ m) i j else 0 := by
    refine tsum_congr fun m => ?_
    by_cases h : m = 0
    · rw [if_pos h, if_neg (by omega)]
    · rw [if_neg h, if_pos (by omega)]
  rw [← h5, h4]
  rw [pow_zero, Nat.zero_add]
  ring

/-- Left-multiplied version of the phi recurrence:
A·phi_{k+1}(A) = phi_k(A) - I/k!. -/
theorem phik_mul_succ (k : ℕ) (A : Matrix N N ℝ) :
    A * phik (k + 1) A = phik k A - ((k.factorial : ℝ))⁻¹ • (1 : Matrix N N ℝ) := by
  ext i j
  rw [Matrix.mul_apply, Matrix.sub_apply, Matrix.smul_apply, phik_apply, smul_eq_mul]
  have hsum : ∀ l : N, Summable fun m : ℕ =>
      A i l * ((((m + (k+1)).factorial : ℝ))⁻¹ * (A ^ m) l j) :=
    fun l => (summable_phi (k+1) A l j).mul_left (A i l)
  have h1 : ∀ l : N, A i l * phik (k+1) A l j
      = tsum fun m : ℕ => A i l * ((((m + (k+1)).factorial : ℝ))⁻¹ * (A ^ m) l j) := by
    intro l
    rw [phik_apply, ← tsum_mul_left]
  have h2 : (∑ l : N, A i l * phik (k+1) A l j)
      = tsum fun m : ℕ => (((m + (k+1)).factorial : ℝ))⁻¹ * (A ^ (m+1)) i j := by
    rw [Finset.sum_congr rfl fun l _ => h1 l, ← tsum_sum fun l _ => hsum l]
    refine tsum_congr fun m => ?_
    rw [pow_succ', Matrix.mul_apply, Finset.mul_sum]
    exact Finset.sum_congr rfl fun l _ => by ring
  rw [h2]
  have h3 : (tsum fun m : ℕ => (((m + (k+1)).factorial : ℝ))⁻¹ * (A ^ (m+1)) i j)
      = tsum fun m : ℕ =>
          if 1 ≤ m then (((m + k).factorial : ℝ))⁻¹ * (A ^ m) i j else 0 := by
    rw [← tsum_shift (fun r : ℕ => (((r + (k+1)).factorial : ℝ))⁻¹ * (A ^ (r+1)) i j) 1]
    refine tsum_congr fun m => ?_
    by_cases h : 1 ≤ m
    · rw [if_pos h, if_pos h, show m - 1 + (k + 1) = m + k by omega,
        show m - 1 + 1 = m by omega]
    · rw [if_neg h, if_neg h]
  rw [h3]
  have h4 := tsum_eq_add_tsum_ite (summable_phi k A i j) 0
  have h5 : (tsum fun m : ℕ =>
        if m = 0 then 0 else (((m + k).factorial : ℝ))⁻¹ * (A ^ m) i j)
      = tsum fun m : ℕ =>
        if 1 ≤ m then (((m + k).factorial : ℝ))⁻¹ * (A ^ m) i j else 0 := by
    refine tsum_congr fun m => ?_
    by_cases h : m = 0
    · rw [if_pos h, if_neg (by omega)]
    · rw [if_neg h, if_pos (by omega)]
  rw [← h5, h4]
  rw [pow_zero, Nat.zero_add]
  ring

/-- phi_k of the zero matrix is I/k!. -/
theorem phik_zero_matrix (k : ℕ) : phik k (0 : Matrix N N ℝ) = ((k.factorial : ℝ))⁻¹ • 1 := by
  ext i j
  rw [phik_apply, Matrix.smul_apply, smul_eq_mul]
  rw [tsum_eq_single 0 (fun m hm => by
    rw [zero_pow hm, Matrix.zero_apply, mul_zero])]
  rw [pow_zero, Nat.zero_add]

theorem expm_zero : expm (0 : Matrix N N ℝ) = 1 := by
  rw [← phik_zero_eq, phik_zero_matrix]
  simp [Nat.factorial]

/-- phi_k preserves diagonal matrices, with the scalar series on the diagonal. -/
theorem phik_diagonal (k : ℕ) (z : N → ℝ) :
    phik k (Matrix.diagonal z) = Matrix.diagonal fun i => phis k (z i) := by
  ext i j
  rw [phik_apply]
  by_cases h : i = j
  · subst h
    rw [Matrix.diagonal_apply_eq]
    refine tsum_congr fun m => ?_
    rw [Matrix.diagonal_pow, Matrix.diagonal_apply_eq, Pi.pow_apply]
  · rw [Matrix.diagonal_apply_ne _ h]
    rw [tsum_congr fun m => by
      rw [Matrix.diagonal_pow, Matrix.diagonal_apply_ne _ h, mul_zero]]
    exact tsum_zero

/-- phi_k commutes with orthogonal change of basis. -/
theorem phik_conj (k : ℕ) (A V : Matrix N N ℝ) (hV : Vᵀ * V = 1) :
    phik k (Vᵀ * A * V) = Vᵀ * phik k A * V := by
  ext i j
  rw [phik_apply, triple_mul_apply]
  refine Eq.symm ?_
  have hsumm : ∀ b a, Summable fun m : ℕ =>
      Vᵀ i a * ((((m + k).factorial : ℝ))⁻¹ * (A ^ m) a b) * V b j :=
    fun b a => ((summable_phi k A a b).mul_left (Vᵀ i a)).mul_right (V b j)
  calc ∑ b : N, ∑ a : N, Vᵀ i a * phik k A a b * V b j
      = ∑ b : N, ∑ a : N, tsum fun m : ℕ =>
          Vᵀ i a * ((((m + k).factorial : ℝ))⁻¹ * (A ^ m) a b) * V b j := by
        refine Finset.sum_congr rfl fun b _ => Finset.sum_congr rfl fun a _ => ?_
        rw [phik_apply, ← tsum_mul_left, ← tsum_mul_right]
  _ = ∑ b : N, tsum fun m : ℕ => ∑ a : N,
          Vᵀ i a * ((((m + k).factorial : ℝ))⁻¹ * (A ^ m) a b) * V b j := by
        exact Finset.sum_congr rfl fun b _ => (tsum_sum fun a _ => hsumm b a).symm
  _ = tsum fun m : ℕ => ∑ b : N, ∑ a : N,
          Vᵀ i a * ((((m + k).factorial : ℝ))⁻¹ * (A ^ m) a b) * V b j := by
        exact (tsum_sum fun b _ => summable_sum fun a _ => hsumm b a).symm
  _ = tsum fun m : ℕ => (((m + k).factorial : ℝ))⁻¹ * (((Vᵀ * A * V) ^ m) i j) := by
        refine tsum_congr fun m => ?_
        rw [conj_pow V A hV m, triple_mul_apply, Finset.mul_sum]
        refine Finset.sum_congr rfl fun b _ => ?_
        rw [Finset.mul_sum]
        exact Finset.sum_congr rfl fun a _ => by ring

theorem summable_shift (f : ℕ → ℝ) (d : ℕ) (hf : Summable f) :
    Summable fun m : ℕ => if d ≤ m then f (m - d) else 0 := by
  have hinj : Function.Injective fun c : ℕ => c + d := add_left_injective d
  have hout : ∀ x ∉ Set.range fun c : ℕ => c + d,
      (if d ≤ x then f (x - d) else 0) = 0 := by
    intro x hx
    refine if_neg fun hdx => hx ⟨x - d, ?_⟩
    show x - d + d = x
    omega
  refine (hinj.summable_iff hout).mp (hf.congr fun c => ?_)
  show f c = if d ≤ c + d then f (c + d - d) else 0
  rw [if_pos (Nat.le_add_left d c), Nat.add_sub_cancel]

theorem fromBlocks_pow {P : Type*} [Fintype P] [DecidableEq P] (A : Matrix N N ℝ)
    (B : Matrix N P ℝ) (J : Matrix P P ℝ) (m : ℕ) :
    (Matrix.fromBlocks A B 0 J) ^ m
      = Matrix.fromBlocks (A ^ m) (Cmat A B J m) 0 (J ^ m) := by
  induction m with
  | zero =>
    rw [pow_zero, pow_zero, pow_zero]
    show (1 : Matrix (N ⊕ P) (N ⊕ P) ℝ) = Matrix.fromBlocks 1 (Cmat A B J 0) 0 1
    rw [show Cmat A B J 0 = 0 from rfl, Matrix.fromBlocks_one]
  | succ m ih =>
    rw [pow_succ, ih, Matrix.fromBlocks_multiply]
    simp [show Cmat A B J (m + 1) = A ^ m * B + Cmat A B J m * J from rfl, pow_succ,
      Matrix.mul_zero, Matrix.zero_mul]

theorem Cmat_eq {P : Type*} [Fintype P] [DecidableEq P] (A : Matrix N N ℝ) (B : Matrix N P ℝ)
    (J : Matrix P P ℝ) (m : ℕ) :
    Cmat A B J m = ∑ t ∈ Finset.range m, A ^ (m - 1 - t) * B * J ^ t := by
  induction m with
  | zero => rw [show Cmat A B J 0 = 0 from rfl, Finset.range_zero, Finset.sum_empty]
  | succ m ih =>
    rw [show Cmat A B J (m + 1) = A ^ m * B + Cmat A B J m * J from rfl, ih]
    rw [Matrix.sum_mul, Finset.sum_range_succ']
    rw [add_comm]
    congr 1
    · refine Finset.sum_congr rfl fun t ht => ?_
      rw [show m + 1 - 1 - (t + 1) = m - 1 - t by omega, Matrix.mul_assoc, ← pow_succ]
    · rw [Nat.sub_zero, Nat.add_sub_cancel, pow_zero, Matrix.mul_one]

theorem expm_fromBlocks_apply12 {P : Type*} [Fintype P] [DecidableEq P]
    (A : Matrix N N ℝ) (B : Matrix N P ℝ) (J : Matrix P P ℝ) (i : N) (q : P) :
    expm (Matrix.fromBlocks A B 0 J) (Sum.inl i) (Sum.inr q)
      = tsum fun m : ℕ => ((m.factorial : ℝ))⁻¹ * Cmat A B J m i q := by
  rw [expm_apply]
  exact tsum_congr fun m => by rw [fromBlocks_pow, Matrix.fromBlocks_apply₁₂]

theorem expm_fromBlocks_apply11 {P : Type*} [Fintype P] [DecidableEq P]
    (A : Matrix N N ℝ) (B : Matrix N P ℝ) (J : Matrix P P ℝ) (i l : N) :
    expm (Matrix.fromBlocks A B 0 J) (Sum.inl i) (Sum.inl l) = expm A i l := by
  rw [expm_apply, expm_apply]
  exact tsum_congr fun m => by rw [fromBlocks_pow, Matrix.fromBlocks_apply₁₁]

theorem phik_mulVec_tsum (k : ℕ) (A : Matrix N N ℝ) (v : N → ℝ) (i : N) :
    (phik k A).mulVec v i
      = tsum fun r : ℕ => (((r + k).factorial : ℝ))⁻¹ * (A ^ r).mulVec v i := by
  have hterm : ∀ l : N, phik k A i l * v l
      = tsum fun r : ℕ => (((r + k).factorial : ℝ))⁻¹ * (A ^ r) i l * v l := by
    intro l
    rw [phik_apply, ← tsum_mul_right]
  have hs : ∀ l : N, Summable fun r : ℕ =>
      (((r + k).factorial : ℝ))⁻¹ * (A ^ r) i l * v l :=
    fun l => (summable_phi k A i l).mul_right (v l)
  simp only [Matrix.mulVec, dotProduct]
  rw [Finset.sum_congr rfl fun l _ => hterm l, ← tsum_sum fun l _ => hs l]
  refine tsum_congr fun r => ?_
  rw [Finset.mul_sum]
  exact Finset.sum_congr rfl fun l _ => by ring

theorem summable_phi_mulVec (k : ℕ) (A : Matrix N N ℝ) (v : N → ℝ) (i : N) :
    Summable fun r : ℕ => (((r + k).factorial : ℝ))⁻¹ * (A ^ r).mulVec v i := by
  have h : Summable fun r : ℕ => ∑ l : N, (((r + k).factorial : ℝ))⁻¹ * (A ^ r) i l * v l :=
    summable_sum fun l _ => (summable_phi k A i l).mul_right (v l)
  refine h.congr fun r => ?_
  simp only [Matrix.mulVec, dotProduct, Finset.mul_sum]
  exact Finset.sum_congr rfl fun l _ => by ring

/-- The central series rearrangement: summing the augmented-block series
column against a finitely supported family g recovers the phi actions. -/
theorem key_sum (A : Matrix N N ℝ) (g : ℕ → N → ℝ) (T : ℕ)
    (hg : ∀ t, T ≤ t → g t = 0) (i : N) :
    (tsum fun m : ℕ => ((m.factorial : ℝ))⁻¹
        * ∑ t ∈ Finset.range m, (A ^ (m - 1 - t)).mulVec (g t) i)
      = ∑ t ∈ Finset.range T, (phik (t + 1) A).mulVec (g t) i := by
  have hzero : ∀ (e : ℕ) (t : ℕ), T ≤ t → (A ^ e).mulVec (g t) i = 0 := by
    intro e t ht
    rw [hg t ht, Matrix.mulVec_zero, Pi.zero_apply]
  have h1 : ∀ m : ℕ, ((m.factorial : ℝ))⁻¹
        * ∑ t ∈ Finset.range m, (A ^ (m - 1 - t)).mulVec (g t) i
      = ∑ t ∈ Finset.range T, (if t + 1 ≤ m then
          ((m.factorial : ℝ))⁻¹ * (A ^ (m - 1 - t)).mulVec (g t) i else 0) := by
    intro m
    rw [Finset.mul_sum]
    have ha : ∑ t ∈ Finset.range m,
          ((m.factorial : ℝ))⁻¹ * (A ^ (m - 1 - t)).mulVec (g t) i
        = ∑ t ∈ Finset.range m, (if t + 1 ≤ m then
            ((m.factorial : ℝ))⁻¹ * (A ^ (m - 1 - t)).mulVec (g t) i else 0) :=
      Finset.sum_congr rfl fun t ht =>
        (if_pos (by exact Nat.succ_le_of_lt (Finset.mem_range.mp ht))).symm
    have hb : ∑ t ∈ Finset.range m, (if t + 1 ≤ m then
            ((m.factorial : ℝ))⁻¹ * (A ^ (m - 1 - t)).mulVec (g t) i else 0)
        = ∑ t ∈ Finset.range (max m T), (if t + 1 ≤ m then
            ((m.factorial : ℝ))⁻¹ * (A ^ (m - 1 - t)).mulVec (g t) i else 0) := by
      refine Finset.sum_subset (Finset.range_subset.mpr (le_max_left m T))
        fun t _ htm => ?_
      rw [if_neg fun hc => htm (Finset.mem_range.mpr (by omega))]
    have hc : ∑ t ∈ Finset.range T, (if t + 1 ≤ m then
            ((m.factorial : ℝ))⁻¹ * (A ^ (m - 1 - t)).mulVec (g t) i else 0)
        = ∑ t ∈ Finset.range (max m T), (if t + 1 ≤ m then
            ((m.factorial : ℝ))⁻¹ * (A ^ (m - 1 - t)).mulVec (g t) i else 0) := by
      refine Finset.sum_subset (Finset.range_subset.mpr (le_max_right m T))
        fun t _ htT => ?_
      have hT : T ≤ t := by
        by_contra hcon
        exact htT (Finset.mem_range.mpr (by omega))
      rw [hzero _ t hT, mul_zero, ite_self]
    rw [ha, hb, ← hc]
  rw [tsum_congr h1]
  have hsummand : ∀ t : ℕ, Summable fun m : ℕ => (if t + 1 ≤ m then
      ((m.factorial : ℝ))⁻¹ * (A ^ (m - 1 - t)).mulVec (g t) i else 0) := by
    intro t
    have h := summable_shift
      (fun r : ℕ => (((r + (t + 1)).factorial : ℝ))⁻¹ * (A ^ r).mulVec (g t) i)
      (t + 1) (summable_phi_mulVec (t + 1) A (g t) i)
    refine h.congr fun m => ?_
    by_cases hm : t + 1 ≤ m
    · simp only [if_pos hm]
      rw [show m - (t + 1) + (t + 1) = m by omega,
        show m - (t + 1) = m - 1 - t by omega]
    · simp only [if_neg hm]
  rw [tsum_sum fun t _ => hsummand t]
  refine Finset.sum_congr rfl fun t ht => ?_
  have h2 : (tsum fun m : ℕ => (if t + 1 ≤ m then
      ((m.factorial : ℝ))⁻¹ * (A ^ (m - 1 - t)).mulVec (g t) i else 0))
      = tsum fun r : ℕ =>
        (((r + (t + 1)).factorial : ℝ))⁻¹ * (A ^ r).mulVec (g t) i := by
    rw [← tsum_shift
      (fun r : ℕ => (((r + (t + 1)).factorial : ℝ))⁻¹ * (A ^ r).mulVec (g t) i)
      (t + 1)]
    refine tsum_congr fun m => ?_
    by_cases hm : t + 1 ≤ m
    · simp only [if_pos hm]
      rw [show m - (t + 1) + (t + 1) = m by omega,
        show m - (t + 1) = m - 1 - t by omega]
    · simp only [if_neg hm]
  rw [h2, ← phik_mulVec_tsum]

theorem Jmat_apply (p : ℕ) (a b : Fin p) :
    Jmat p a b = if (a : ℕ) + 1 = (b : ℕ) then 1 else 0 := rfl

theorem Bappl_apply (b : N → ℝ) (p : ℕ) (i : N) (q : Fin p) :
    Bappl b p i q = if (q : ℕ) = 0 then b i else 0 := rfl

theorem Bkiops_apply (p : ℕ) (vb : ℕ → N → ℝ) (i : N) (q : Fin p) :
    Bkiops p vb i q = vb (p - (q : ℕ)) i := rfl

theorem Jext_apply (k : ℕ) (a b : Fin k × N) :
    (Jext k : Matrix (Fin k × N) (Fin k × N) ℝ) a b
      = if (a.1 : ℕ) + 1 = (b.1 : ℕ) ∧ a.2 = b.2 then 1 else 0 := rfl

theorem Bext_apply (k : ℕ) (i : N) (a : Fin k × N) :
    Bext k i a = if (a.1 : ℕ) = 0 ∧ i = a.2 then 1 else 0 := rfl

theorem Bappl_mul_Jpow (b : N → ℝ) (p t : ℕ) (l : N) (q : Fin p) :
    (Bappl b p * (Jmat p) ^ t) l q = if (q : ℕ) = t then b l else 0 := by
  induction t generalizing q with
  | zero => rw [pow_zero, Matrix.mul_one, Bappl_apply]
  | succ t ih =>
    rw [pow_succ, ← Matrix.mul_assoc, Matrix.mul_apply]
    by_cases hp : t < p
    · have hcoe : ((⟨t, hp⟩ : Fin p) : ℕ) = t := rfl
      rw [Finset.sum_eq_single (⟨t, hp⟩ : Fin p)]
      · rw [ih, Jmat_apply, hcoe, if_pos rfl]
        by_cases hq : (q : ℕ) = t + 1
        · rw [if_pos (by omega), if_pos hq, mul_one]
        · rw [if_neg (by omega), if_neg hq, mul_zero]
      · intro c _ hc
        rw [ih, if_neg fun hct => hc (Fin.ext (by rw [hcoe]; exact hct)), zero_mul]
      · intro habs
        exact absurd (Finset.mem_univ _) habs
    · rw [Finset.sum_eq_zero fun c _ => by
        rw [ih, if_neg (fun hct => hp (by have := c.isLt; omega)), zero_mul]]
      rw [if_neg fun hq => hp (by have := q.isLt; omega)]

theorem Bkiops_mul_Jpow (p : ℕ) (vb : ℕ → N → ℝ) (t : ℕ) (l : N) (q : Fin p) :
    (Bkiops p vb * (Jmat p) ^ t) l q
      = if t ≤ (q : ℕ) then vb (p - (q : ℕ) + t) l else 0 := by
  induction t generalizing q with
  | zero =>
    rw [pow_zero, Matrix.mul_one, Bkiops_apply, if_pos (Nat.zero_le _), Nat.add_zero]
  | succ t ih =>
    rw [pow_succ, ← Matrix.mul_assoc, Matrix.mul_apply]
    by_cases hq0 : (q : ℕ) = 0
    · rw [Finset.sum_eq_zero fun c _ => by
        rw [Jmat_apply, if_neg (fun hc1 => by omega), mul_zero]]
      rw [if_neg (by omega)]
    · have hqlt := q.isLt
      have hqp : (q : ℕ) - 1 < p := by omega
      have hcoe : ((⟨(q : ℕ) - 1, hqp⟩ : Fin p) : ℕ) = (q : ℕ) - 1 := rfl
      rw [Finset.sum_eq_single (⟨(q : ℕ) - 1, hqp⟩ : Fin p)]
      · rw [ih, Jmat_apply, hcoe, if_pos (show (q : ℕ) - 1 + 1 = (q : ℕ) by omega),
          mul_one]
        by_cases ht : t + 1 ≤ (q : ℕ)
        · rw [if_pos (show t ≤ (q : ℕ) - 1 by omega), if_pos ht,
            show p - ((q : ℕ) - 1) + t = p - (q : ℕ) + (t + 1) by omega]
        · rw [if_neg (show ¬ t ≤ (q : ℕ) - 1 by omega), if_neg ht]
      · intro c _ hc
        rw [Jmat_apply, if_neg fun hc1 => hc (Fin.ext (by omega)), mul_zero]
      · intro habs
        exact absurd (Finset.mem_univ _) habs

theorem Bext_mul_Jpow (k t : ℕ) (l : N) (a : Fin k × N) :
    (Bext k * (Jext k) ^ t : Matrix N (Fin k × N) ℝ) l a
      = if (a.1 : ℕ) = t ∧ l = a.2 then 1 else 0 := by
  induction t generalizing a with
  | zero => rw [pow_zero, Matrix.mul_one, Bext_apply]
  | succ t ih =>
    rw [pow_succ, ← Matrix.mul_assoc, Matrix.mul_apply]
    by_cases hp : t < k
    · have hcoe : ((⟨t, hp⟩ : Fin k) : ℕ) = t := rfl
      rw [Finset.sum_eq_single ((⟨t, hp⟩, l) : Fin k × N)]
      · rw [ih, Jext_apply, if_pos ⟨rfl, rfl⟩, one_mul]
        show (if ((⟨t, hp⟩ : Fin k) : ℕ) + 1 = (a.1 : ℕ) ∧ l = a.2 then (1 : ℝ) else 0)
          = if (a.1 : ℕ) = t + 1 ∧ l = a.2 then 1 else 0
        rw [hcoe]
        by_cases hq : (a.1 : ℕ) = t + 1 ∧ l = a.2
        · rw [if_pos ⟨by omega, hq.2⟩, if_pos hq]
        · rw [if_neg fun hc => hq ⟨by omega, hc.2⟩, if_neg hq]
      · intro c _ hc
        rw [ih, if_neg fun hct =>
          hc (Prod.ext (Fin.ext (by rw [hcoe]; exact hct.1)) hct.2.symm), zero_mul]
      · intro habs
        exact absurd (Finset.mem_univ _) habs
    · rw [Finset.sum_eq_zero fun c _ => by
        rw [ih, if_neg (fun hct => hp (by have := c.1.isLt; omega)), zero_mul]]
      rw [if_neg fun hq => hp (by have := a.1.isLt; omega)]

theorem Cmat_entry {P : Type*} [Fintype P] [DecidableEq P] (A : Matrix N N ℝ)
    (B : Matrix N P ℝ) (J : Matrix P P ℝ) (m : ℕ) (i : N) (q : P) :
    Cmat A B J m i q
      = ∑ t ∈ Finset.range m, (A ^ (m - 1 - t)).mulVec (fun l => (B * J ^ t) l q) i := by
  rw [Cmat_eq, Matrix.sum_apply]
  refine Finset.sum_congr rfl fun t ht => ?_
  rw [Matrix.mul_assoc, Matrix.mul_apply]
  simp [Matrix.mulVec, dotProduct]

/-- The augmented-block identity, in abstract form: the top-right block column
of exp([[A, B], [0, J]]) is a sum of phi actions against the columns of the
B·J^t products. -/
theorem expm_block12_eq {P : Type*} [Fintype P] [DecidableEq P] (A : Matrix N N ℝ)
    (B : Matrix N P ℝ) (J : Matrix P P ℝ) (q : P) (T : ℕ) (g : ℕ → N → ℝ)
    (hcol : ∀ t, (fun l => (B * J ^ t) l q) = g t)
    (hg : ∀ t, T ≤ t → g t = 0) (i : N) :
    expm (Matrix.fromBlocks A B 0 J) (Sum.inl i) (Sum.inr q)
      = ∑ t ∈ Finset.range T, (phik (t + 1) A).mulVec (g t) i := by
  rw [expm_fromBlocks_apply12]
  have h1 : ∀ m : ℕ, Cmat A B J m i q
      = ∑ t ∈ Finset.range m, (A ^ (m - 1 - t)).mulVec (g t) i := by
    intro m
    rw [Cmat_entry]
    exact Finset.sum_congr rfl fun t _ => by rw [hcol t]
  rw [tsum_congr fun m => by rw [h1 m]]
  exact key_sum A g T hg i

/-- The matrix-free application path agrees with the explicit-matrix path:
f_phi_k_appl(A, b, k) = phi_k(A)·b for every order k. -/
theorem f_phi_k_appl_eq (A : Matrix N N ℝ) (b : N → ℝ) (k : ℕ) :
    f_phi_k_appl A b k = (phik k A).mulVec b := by
  cases k with
  | zero =>
    show (expm A).mulVec b = _
    rw [phik_zero_eq]
  | succ k =>
    funext i
    show expm (Matrix.fromBlocks A (Bappl b (k + 1)) 0 (Jmat (k + 1)))
        (Sum.inl i) (Sum.inr ⟨k, Nat.lt_succ_self k⟩) = _
    rw [expm_block12_eq A (Bappl b (k + 1)) (Jmat (k + 1))
      (⟨k, Nat.lt_succ_self k⟩ : Fin (k + 1)) (k + 1)
      (fun t l => if t = k then b l else 0)
      (fun t => funext fun l => by
        rw [Bappl_mul_Jpow]
        show (if ((⟨k, Nat.lt_succ_self k⟩ : Fin (k + 1)) : ℕ) = t then b l else 0)
          = if t = k then b l else 0
        rw [show ((⟨k, Nat.lt_succ_self k⟩ : Fin (k + 1)) : ℕ) = k from rfl]
        by_cases ht : t = k
        · rw [if_pos (by omega), if_pos ht]
        · rw [if_neg (by omega), if_neg ht])
      (fun t ht => funext fun l => by
        show (if t = k then b l else 0) = (0 : N → ℝ) l
        rw [if_neg (by omega)]
        rfl) i]
    rw [Finset.sum_eq_single k]
    · have hone : (fun l => if k = k then b l else 0) = b := funext fun l => if_pos rfl
      rw [hone]
    · intro t _ htk
      have hzero : (fun l => if t = k then b l else 0) = (0 : N → ℝ) :=
        funext fun l => by rw [if_neg htk]; rfl
      rw [hzero, Matrix.mulVec_zero, Pi.zero_apply]
    · intro habs
      exact absurd (Finset.self_mem_range_succ k) habs

/-- The augmented block-matrix dense kernel computes phi_k. -/
theorem f_phi_k_ext_eq (A : Matrix N N ℝ) (k : ℕ) : f_phi_k_ext A k = phik k A := by
  cases k with
  | zero =>
    show expm A = _
    rw [phik_zero_eq]
  | succ k =>
    ext i j
    show expm (Matrix.fromBlocks A (Bext (k + 1)) 0 (Jext (k + 1)))
        (Sum.inl i) (Sum.inr (⟨k, Nat.lt_succ_self k⟩, j)) = _
    rw [expm_block12_eq A (Bext (k + 1)) (Jext (k + 1))
      ((⟨k, Nat.lt_succ_self k⟩, j) : Fin (k + 1) × N) (k + 1)
      (fun t l => if t = k ∧ l = j then 1 else 0)
      (fun t => funext fun l => by
        rw [Bext_mul_Jpow]
        show (if (((⟨k, Nat.lt_succ_self k⟩, j) : Fin (k + 1) × N).1 : ℕ) = t
              ∧ l = ((⟨k, Nat.lt_succ_self k⟩, j) : Fin (k + 1) × N).2
            then (1 : ℝ) else 0)
          = if t = k ∧ l = j then 1 else 0
        rw [show ((((⟨k, Nat.lt_succ_self k⟩, j) : Fin (k + 1) × N).1 : ℕ)) = k from rfl]
        by_cases ht : t = k ∧ l = j
        · rw [if_pos ⟨by omega, ht.2⟩, if_pos ht]
        · rw [if_neg fun hc => ht ⟨by omega, hc.2⟩, if_neg ht])
      (fun t ht => funext fun l => by
        show (if t = k ∧ l = j then (1 : ℝ) else 0) = (0 : N → ℝ) l
        rw [if_neg fun hc => by omega]
        rfl) i]
    rw [Finset.sum_eq_single k]
    · have hone : (fun l => if k = k ∧ l = j then (1 : ℝ) else 0)
          = fun l => if l = j then 1 else 0 :=
        funext fun l => by
          by_cases hl : l = j
          · rw [if_pos ⟨rfl, hl⟩, if_pos hl]
          · rw [if_neg fun hc => hl hc.2, if_neg hl]
      rw [hone]
      simp only [Matrix.mulVec, dotProduct]
      rw [Finset.sum_eq_single j]
      · rw [if_pos rfl, mul_one]
      · intro l _ hl
        rw [if_neg hl, mul_zero]
      · intro habs
        exact absurd (Finset.mem_univ _) habs
    · intro t _ htk
      have hzero : (fun l => if t = k ∧ l = j then (1 : ℝ) else 0) = (0 : N → ℝ) :=
        funext fun l => by rw [if_neg fun hc => htk hc.1]; rfl
      rw [hzero, Matrix.mulVec_zero, Pi.zero_apply]
    · intro habs
      exact absurd (Finset.self_mem_range_succ k) habs

theorem sum_range_eq_sum_Icc (f : ℕ → ℝ) (p : ℕ) :
    ∑ t ∈ Finset.range p, f (t + 1) = ∑ t ∈ Finset.Icc 1 p, f t := by
  induction p with
  | zero =>
    rw [Finset.range_zero, Finset.sum_empty, Finset.Icc_eq_empty (by omega),
      Finset.sum_empty]
  | succ p ih =>
    rw [Finset.sum_range_succ, ih, Finset.sum_Icc_succ_top (by omega)]

/-- KIOPS combination law at the exact-evaluation level: for n_steps = 1 the
augmented evaluation equals phi_0(dt·A)·b_0 + Σ_{i=1}^p phi_i(dt·A)·b_i, with
no additional dt^i weights on the input vectors. -/
theorem kiops_fixedsteps_eq (A : Matrix N N ℝ) (dt : ℝ) (p : ℕ)
    (vb : ℕ → N → ℝ) (i : N) :
    kiops_fixedsteps A dt p vb i
      = (expm (dt • A)).mulVec (vb 0) i
        + ∑ t ∈ Finset.Icc 1 p, (phik t (dt • A)).mulVec (vb t) i := by
  have hstart : kiops_fixedsteps A dt p vb i
      = (∑ l : N, expm (Matrix.fromBlocks (dt • A) (Bkiops p vb) 0 (Jmat p))
            (Sum.inl i) (Sum.inl l) * vb 0 l)
        + ∑ q : Fin p, expm (Matrix.fromBlocks (dt • A) (Bkiops p vb) 0 (Jmat p))
            (Sum.inl i) (Sum.inr q) * eLast p q := by
    show (expm (Matrix.fromBlocks (dt • A) (Bkiops p vb) 0 (Jmat p))).mulVec
        (Sum.elim (vb 0) (eLast p)) (Sum.inl i) = _
    simp only [Matrix.mulVec, dotProduct]
    rw [Fintype.sum_sum_type]
    simp only [Sum.elim_inl, Sum.elim_inr]
  rw [hstart]
  congr 1
  · show _ = ∑ l : N, expm (dt • A) i l * vb 0 l
    refine Finset.sum_congr rfl fun l _ => ?_
    rw [expm_fromBlocks_apply11]
  · cases p with
    | zero =>
      rw [Finset.univ_eq_empty, Finset.sum_empty,
        Finset.Icc_eq_empty (by omega), Finset.sum_empty]
    | succ p =>
      rw [Finset.sum_eq_single (⟨p, Nat.lt_succ_self p⟩ : Fin (p + 1))]
      · rw [show eLast (p + 1) ⟨p, Nat.lt_succ_self p⟩ = 1 from if_pos rfl, mul_one]
        rw [expm_block12_eq (dt • A) (Bkiops (p + 1) vb) (Jmat (p + 1))
          (⟨p, Nat.lt_succ_self p⟩ : Fin (p + 1)) (p + 1)
          (fun t l => if t + 1 ≤ p + 1 then vb (t + 1) l else 0)
          (fun t => funext fun l => by
            rw [Bkiops_mul_Jpow]
            show (if t ≤ ((⟨p, Nat.lt_succ_self p⟩ : Fin (p + 1)) : ℕ)
                then vb (p + 1 - ((⟨p, Nat.lt_succ_self p⟩ : Fin (p + 1)) : ℕ) + t) l
                else 0)
              = if t + 1 ≤ p + 1 then vb (t + 1) l else 0
            rw [show ((⟨p, Nat.lt_succ_self p⟩ : Fin (p + 1)) : ℕ) = p from rfl]
            by_cases ht : t ≤ p
            · rw [if_pos ht, if_pos (by omega), show p + 1 - p + t = t + 1 by omega]
            · rw [if_neg ht, if_neg (by omega)])
          (fun t ht => funext fun l => by
            show (if t + 1 ≤ p + 1 then vb (t + 1) l else 0) = (0 : N → ℝ) l
            rw [if_neg (by omega)]
            rfl) i]
        rw [← sum_range_eq_sum_Icc
          (fun t => (phik t (dt • A)).mulVec (vb t) i) (p + 1)]
        refine Finset.sum_congr rfl fun t htr => ?_
        have ht1 : t + 1 ≤ p + 1 := by
          have := Finset.mem_range.mp htr
          omega
        have hgt : (fun l => if t + 1 ≤ p + 1 then vb (t + 1) l else 0) = vb (t + 1) :=
          funext fun l => if_pos ht1
        rw [hgt]
      · intro q _ hq
        rw [show eLast (p + 1) q = 0 from if_neg fun hc => hq (Fin.ext (by
            rw [show ((⟨p, Nat.lt_succ_self p⟩ : Fin (p + 1)) : ℕ) = p from rfl]
            omega)), mul_zero]
      · intro habs
        exact absurd (Finset.mem_univ _) habs

/-- Full-dimension Krylov exactness: if the basis V is orthogonal, H is the
projection of A, and b is β times the first basis vector, the projected phi
evaluation reproduces the exact phi action on b. -/
theorem phi_linop_exact {d : ℕ} (A V H : Matrix (Fin d) (Fin d) ℝ) (β : ℝ)
    (b : Fin d → ℝ) (k : ℕ)
    (hV : Vᵀ * V = 1) (hH : H = Vᵀ * A * V)
    (hb : b = β • V.mulVec fun q => if (q : ℕ) = 0 then 1 else 0) :
    phi_linop V H 1 β k = (phik k A).mulVec b := by
  have hVV : V * Vᵀ = 1 := Matrix.mul_eq_one_comm.mp hV
  subst hH hb
  unfold phi_linop
  rw [one_smul, phik_conj k A V hV, Matrix.mulVec_smul]
  rw [Matrix.mulVec_mulVec, Matrix.mulVec_mulVec]
  congr 1
  rw [← Matrix.mul_assoc, ← Matrix.mul_assoc, hVV, Matrix.one_mul]

/-- The scalar coefficient identity behind the phi doubling recurrence:
sum over the Cauchy antidiagonal plus the correction terms equals the
doubled-argument coefficient. -/
theorem coef_double (n k : ℕ) :
    (∑ ab ∈ Finset.antidiagonal n,
        ((ab.1.factorial : ℝ))⁻¹ * (((ab.2 + k).factorial : ℝ))⁻¹)
      + ∑ j ∈ Finset.Icc 1 k,
          (((n + j).factorial : ℝ))⁻¹ * (((k - j).factorial : ℝ))⁻¹
    = 2 ^ (n + k) * (((n + k).factorial : ℝ))⁻¹ := by
  have h1 : ∀ ab ∈ Finset.antidiagonal n,
      ((ab.1.factorial : ℝ))⁻¹ * (((ab.2 + k).factorial : ℝ))⁻¹
        = ((n + k).choose ab.1 : ℝ) * (((n + k).factorial : ℝ))⁻¹ := by
    intro ab hab
    have hab2 : ab.1 + ab.2 = n := Finset.mem_antidiagonal.mp hab
    have hle : ab.1 ≤ n + k := by omega
    have hid := Nat.choose_mul_factorial_mul_factorial hle
    rw [show n + k - ab.1 = ab.2 + k by omega] at hid
    have hidR : ((n + k).choose ab.1 : ℝ) * (ab.1.factorial : ℝ)
          * ((ab.2 + k).factorial : ℝ) = ((n + k).factorial : ℝ) := by
      exact_mod_cast congrArg (fun x : ℕ => (x : ℝ)) hid
    have hf1 : ((ab.1.factorial : ℝ)) ≠ 0 := by positivity
    have hf2 : (((ab.2 + k).factorial : ℝ)) ≠ 0 := by positivity
    have hf3 : (((n + k).factorial : ℝ)) ≠ 0 := by positivity
    field_simp
    linear_combination -hidR
  have h2 : ∀ j ∈ Finset.Icc 1 k,
      (((n + j).factorial : ℝ))⁻¹ * (((k - j).factorial : ℝ))⁻¹
        = ((n + k).choose (n + j) : ℝ) * (((n + k).factorial : ℝ))⁻¹ := by
    intro j hj
    have hjk := Finset.mem_Icc.mp hj
    have hle : n + j ≤ n + k := by omega
    have hid := Nat.choose_mul_factorial_mul_factorial hle
    rw [show n + k - (n + j) = k - j by omega] at hid
    have hidR : ((n + k).choose (n + j) : ℝ) * ((n + j).factorial : ℝ)
          * ((k - j).factorial : ℝ) = ((n + k).factorial : ℝ) := by
      exact_mod_cast congrArg (fun x : ℕ => (x : ℝ)) hid
    have hf1 : (((n + j).factorial : ℝ)) ≠ 0 := by positivity
    have hf2 : (((k - j).factorial : ℝ)) ≠ 0 := by positivity
    have hf3 : (((n + k).factorial : ℝ)) ≠ 0 := by positivity
    field_simp
    linear_combination -hidR
  rw [Finset.sum_congr rfl h1, Finset.sum_congr rfl h2, ← Finset.sum_mul,
    ← Finset.sum_mul, ← add_mul]
  congr 1
  rw [Finset.Nat.sum_antidiagonal_eq_sum_range_succ_mk]
  rw [← sum_range_eq_sum_Icc (fun j => ((n + k).choose (n + j) : ℝ)) k]
  have hsplit := Finset.sum_range_add (fun m => ((n + k).choose m : ℝ)) (n + 1) k
  have hcast : ∑ m ∈ Finset.range (n + 1 + k), ((n + k).choose m : ℝ) = 2 ^ (n + k) := by
    rw [show n + 1 + k = n + k + 1 by omega]
    exact_mod_cast congrArg (fun x : ℕ => (x : ℝ)) (Nat.sum_range_choose (n + k))
  rw [hcast] at hsplit
  have e2 : ∑ t ∈ Finset.range k, (((n + k).choose (n + (t + 1))) : ℝ)
      = ∑ t ∈ Finset.range k, (((n + k).choose (n + 1 + t)) : ℝ) :=
    Finset.sum_congr rfl fun t _ => by rw [show n + (t + 1) = n + 1 + t by omega]
  rw [e2]
  exact hsplit.symm

theorem phik_mul_phik_entry (k : ℕ) (A : Matrix N N ℝ) (i j : N) :
    (phik 0 A * phik k A) i j
      = tsum fun n : ℕ =>
          (∑ ab ∈ Finset.antidiagonal n,
            ((ab.1.factorial : ℝ))⁻¹ * (((ab.2 + k).factorial : ℝ))⁻¹) * (A ^ n) i j := by
  rw [Matrix.mul_apply]
  have hterm : ∀ l : N, phik 0 A i l * phik k A l j
      = tsum fun n : ℕ => ∑ ab ∈ Finset.antidiagonal n,
          (((ab.1 + 0).factorial : ℝ))⁻¹ * (A ^ ab.1) i l
            * ((((ab.2 + k).factorial : ℝ))⁻¹ * (A ^ ab.2) l j) := by
    intro l
    have hfn : Summable fun x : ℕ => ‖(((x + 0).factorial : ℝ))⁻¹ * (A ^ x) i l‖ := by
      simp only [Real.norm_eq_abs]
      exact summable_phi_abs 0 A i l
    have hgn : Summable fun x : ℕ => ‖(((x + k).factorial : ℝ))⁻¹ * (A ^ x) l j‖ := by
      simp only [Real.norm_eq_abs]
      exact summable_phi_abs k A l j
    rw [phik_apply, phik_apply]
    exact tsum_mul_tsum_eq_tsum_sum_antidiagonal_of_summable_norm hfn hgn
  have hFsum : ∀ l : N, Summable fun n : ℕ => ∑ ab ∈ Finset.antidiagonal n,
      (((ab.1 + 0).factorial : ℝ))⁻¹ * (A ^ ab.1) i l
        * ((((ab.2 + k).factorial : ℝ))⁻¹ * (A ^ ab.2) l j) := by
    intro l
    have hfn : Summable fun x : ℕ => ‖(((x + 0).factorial : ℝ))⁻¹ * (A ^ x) i l‖ := by
      simp only [Real.norm_eq_abs]
      exact summable_phi_abs 0 A i l
    have hgn : Summable fun x : ℕ => ‖(((x + k).factorial : ℝ))⁻¹ * (A ^ x) l j‖ := by
      simp only [Real.norm_eq_abs]
      exact summable_phi_abs k A l j
    exact (summable_norm_sum_mul_antidiagonal_of_summable_norm hfn hgn).of_norm
  rw [Finset.sum_congr rfl fun l _ => hterm l, ← tsum_sum fun l _ => hFsum l]
  refine tsum_congr fun n => ?_
  rw [Finset.sum_comm, Finset.sum_mul]
  refine Finset.sum_congr rfl fun ab hab => ?_
  have hab2 : ab.1 + ab.2 = n := Finset.mem_antidiagonal.mp hab
  rw [show n = ab.1 + ab.2 from hab2.symm, pow_add, Matrix.mul_apply, Finset.mul_sum]
  refine Finset.sum_congr rfl fun l _ => ?_
  rw [Nat.add_zero]
  ring

theorem phik_corr_entry (k : ℕ) (A : Matrix N N ℝ) (i j : N) :
    (∑ j2 ∈ Finset.Icc 1 k, (((k - j2).factorial : ℝ))⁻¹ • phik j2 A) i j
      = tsum fun n : ℕ =>
          (∑ j2 ∈ Finset.Icc 1 k,
            (((n + j2).factorial : ℝ))⁻¹ * (((k - j2).factorial : ℝ))⁻¹) * (A ^ n) i j := by
  rw [Matrix.sum_apply]
  have hterm : ∀ j2 : ℕ, ((((k - j2).factorial : ℝ))⁻¹ • phik j2 A) i j
      = tsum fun n : ℕ =>
          (((k - j2).factorial : ℝ))⁻¹ * ((((n + j2).factorial : ℝ))⁻¹ * (A ^ n) i j) := by
    intro j2
    rw [Matrix.smul_apply, smul_eq_mul, phik_apply, ← tsum_mul_left]
  rw [Finset.sum_congr rfl fun j2 _ => hterm j2,
    ← tsum_sum fun j2 _ => (summable_phi j2 A i j).mul_left _]
  refine tsum_congr fun n => ?_
  rw [Finset.sum_mul]
  exact Finset.sum_congr rfl fun j2 _ => by ring

theorem summable_ca (k : ℕ) (A : Matrix N N ℝ) (i j : N) :
    Summable fun n : ℕ =>
      (∑ ab ∈ Finset.antidiagonal n,
        ((ab.1.factorial : ℝ))⁻¹ * (((ab.2 + k).factorial : ℝ))⁻¹) * (A ^ n) i j := by
  refine Summable.of_norm ?_
  refine Summable.of_nonneg_of_le (fun n => norm_nonneg _) (fun n => ?_)
    ((Real.summable_pow_div_factorial (2 * entryBound A)).mul_left ((2 : ℝ) ^ k))
  rw [Real.norm_eq_abs, abs_mul]
  have hca_nonneg : (0 : ℝ) ≤ ∑ ab ∈ Finset.antidiagonal n,
      ((ab.1.factorial : ℝ))⁻¹ * (((ab.2 + k).factorial : ℝ))⁻¹ :=
    Finset.sum_nonneg fun ab _ => by positivity
  have hcb_nonneg : (0 : ℝ) ≤ ∑ j2 ∈ Finset.Icc 1 k,
      (((n + j2).factorial : ℝ))⁻¹ * (((k - j2).factorial : ℝ))⁻¹ :=
    Finset.sum_nonneg fun j2 _ => by positivity
  have hca_le : (∑ ab ∈ Finset.antidiagonal n,
        ((ab.1.factorial : ℝ))⁻¹ * (((ab.2 + k).factorial : ℝ))⁻¹)
      ≤ 2 ^ (n + k) * (((n + k).factorial : ℝ))⁻¹ := by
    have := coef_double n k
    linarith
  calc |∑ ab ∈ Finset.antidiagonal n,
        ((ab.1.factorial : ℝ))⁻¹ * (((ab.2 + k).factorial : ℝ))⁻¹| * |(A ^ n) i j|
      ≤ (2 ^ (n + k) * (((n + k).factorial : ℝ))⁻¹) * entryBound A ^ n := by
        refine mul_le_mul ?_ (abs_entry_pow_le A n i j) (abs_nonneg _) (by positivity)
        rw [abs_of_nonneg hca_nonneg]
        exact hca_le
  _ ≤ (2 ^ (n + k) * ((n.factorial : ℝ))⁻¹) * entryBound A ^ n := by
        refine mul_le_mul_of_nonneg_right
          (mul_le_mul_of_nonneg_left ?_ (by positivity))
          (pow_nonneg (entryBound_nonneg A) n)
        exact factorial_inv_le n k
  _ = (2 : ℝ) ^ k * ((2 * entryBound A) ^ n / n.factorial) := by
        rw [div_eq_mul_inv, mul_pow, pow_add]
        ring

theorem summable_cb (k : ℕ) (A : Matrix N N ℝ) (i j : N) :
    Summable fun n : ℕ =>
      (∑ j2 ∈ Finset.Icc 1 k,
        (((n + j2).factorial : ℝ))⁻¹ * (((k - j2).factorial : ℝ))⁻¹) * (A ^ n) i j := by
  have h : Summable fun n : ℕ => ∑ j2 ∈ Finset.Icc 1 k,
      (((k - j2).factorial : ℝ))⁻¹ * ((((n + j2).factorial : ℝ))⁻¹ * (A ^ n) i j) :=
    summable_sum fun j2 _ => (summable_phi j2 A i j).mul_left _
  refine h.congr fun n => ?_
  rw [Finset.sum_mul]
  exact Finset.sum_congr rfl fun j2 _ => by ring

/-- The phi doubling recurrence: the value of phi_k at 2A equals one doubling
step applied to the family of phi values at A. -/
theorem phik_double (k : ℕ) (A : Matrix N N ℝ) :
    phik k ((2 : ℝ) • A) = doubleStep (fun j => phik j A) k := by
  ext i j
  show phik k ((2 : ℝ) • A) i j
    = (((2 : ℝ) ^ k)⁻¹ • (phik 0 A * phik k A
        + ∑ j2 ∈ Finset.Icc 1 k, (((k - j2).factorial : ℝ))⁻¹ • phik j2 A)) i j
  rw [Matrix.smul_apply, Matrix.add_apply, smul_eq_mul, phik_mul_phik_entry,
    phik_corr_entry, ← tsum_add (summable_ca k A i j) (summable_cb k A i j),
    ← tsum_mul_left, phik_apply]
  refine tsum_congr fun n => ?_
  rw [smul_pow, Matrix.smul_apply, smul_eq_mul, ← add_mul, coef_double n k, pow_add]
  have h2k : ((2 : ℝ) ^ k) ≠ 0 := by positivity
  have hfk : (((n + k).factorial : ℝ)) ≠ 0 := by positivity
  field_simp
  ring

theorem doubleStep_phik (A : Matrix N N ℝ) :
    doubleStep (fun j => phik j A) = fun k => phik k ((2 : ℝ) • A) :=
  funext fun k => (phik_double k A).symm

/-- The scaling-and-squaring kernel computes phi_k exactly, for every number
of scaling steps s. -/
theorem f_phi_k_sq_eq (s : ℕ) (A : Matrix N N ℝ) (k : ℕ) :
    f_phi_k_sq s A k = phik k A := by
  induction s with
  | zero =>
    show (doubleStep^[0] fun j => phik j ((((2 : ℝ) ^ 0))⁻¹ • A)) k = phik k A
    rw [Function.iterate_zero_apply, pow_zero, inv_one, one_smul]
  | succ s ih =>
    show (doubleStep^[s + 1] fun j => phik j ((((2 : ℝ) ^ (s + 1)))⁻¹ • A)) k = phik k A
    rw [Function.iterate_succ_apply, doubleStep_phik,
      show (2 : ℝ) • ((((2 : ℝ) ^ (s + 1)))⁻¹ • A) = (((2 : ℝ) ^ s))⁻¹ • A from by
        rw [smul_smul]
        congr 1
        rw [pow_succ]
        have h2s : ((2 : ℝ) ^ s) ≠ 0 := by positivity
        field_simp
        ring]
    exact ih

/-- Claim C1: for every operator A and seed b, the Krylov-projected evaluation
phi_linop with dt = 1, k = 0 and an untruncated basis (orthogonal V spanning
the full space, H the projected operator, b = β·V·e0) equals the dense matrix
exponential of A applied to b; the 1e-8 relative tolerance of the float test
is subsumed by exact equality in the exact-arithmetic model. -/
theorem claim_C1 {d : ℕ} (A V H : Matrix (Fin d) (Fin d) ℝ) (β : ℝ)
    (b : Fin d → ℝ) (hV : Vᵀ * V = 1) (hH : H = Vᵀ * A * V)
    (hb : b = β • V.mulVec fun q => if (q : ℕ) = 0 then 1 else 0) :
    phi_linop V H 1 β 0 = (expm A).mulVec b := by
  rw [phi_linop_exact A V H β b 0 hV hH hb, phik_zero_eq]

theorem claim_C1_witness :
    ((1 : Matrix (Fin 1) (Fin 1) ℝ)ᵀ * 1 = 1)
    ∧ ((0 : Matrix (Fin 1) (Fin 1) ℝ) = (1 : Matrix (Fin 1) (Fin 1) ℝ)ᵀ * 0 * 1)
    ∧ phi_linop (1 : Matrix (Fin 1) (Fin 1) ℝ) (0 : Matrix (Fin 1) (Fin 1) ℝ) 1 1 0
        = (expm (0 : Matrix (Fin 1) (Fin 1) ℝ)).mulVec
            ((1 : ℝ) • (1 : Matrix (Fin 1) (Fin 1) ℝ).mulVec
              fun q => if (q : ℕ) = 0 then 1 else 0) := by
  refine ⟨by simp, by simp, ?_⟩
  exact claim_C1 (0 : Matrix (Fin 1) (Fin 1) ℝ) 1 0 1 _ (by simp) (by simp) rfl

/-- Claim C2: for the 3×3 Bateman-chain matrix with dt = 2.5, b_0 = 0,
b_1 = linspace(0.2,3.4,3)·0.1, b_2 = linspace(0.8,4.0,3)·1e-4, the KIOPS
single-step evaluation equals phi_1(dt·A)·b_1 + phi_2(dt·A)·b_2 (exactly in
the exact model, hence within the 1e-6 tolerance of the float test). -/
theorem claim_C2 :
    kiops_fixedsteps batemanA (2.5 : ℝ) 2 vbBateman
      = fun i => (phik 1 ((2.5 : ℝ) • batemanA)).mulVec batemanB1 i
          + (phik 2 ((2.5 : ℝ) • batemanA)).mulVec batemanB2 i := by
  funext i
  rw [kiops_fixedsteps_eq]
  rw [show vbBateman 0 = 0 from rfl, Matrix.mulVec_zero, Pi.zero_apply, zero_add]
  rw [show (Finset.Icc 1 2 : Finset ℕ) = {1, 2} from by decide]
  rw [Finset.sum_insert (by decide), Finset.sum_singleton]
  rw [show vbBateman 1 = batemanB1 from rfl, show vbBateman 2 = batemanB2 from rfl]

/-- Claim C3 (amended): kiops_fixedsteps with n_steps = 1 evaluates
phi_0(dt·A)·b_0 + Σ_{i=1}^p phi_i(dt·A)·b_i — each b_i enters with weight one;
dt appears only inside the phi arguments, with no additional dt^i factors. -/
theorem claim_C3 (A : Matrix N N ℝ) (dt : ℝ) (p : ℕ) (vb : ℕ → N → ℝ) (i : N) :
    kiops_fixedsteps A dt p vb i
      = (expm (dt • A)).mulVec (vb 0) i
        + ∑ t ∈ Finset.Icc 1 p, (phik t (dt • A)).mulVec (vb t) i :=
  kiops_fixedsteps_eq A dt p vb i

/-- Claim C3 counterexample: with the 1×1 zero operator, dt = 2, p = 1,
b_0 = 0 and b_1 = 1, the kiops evaluation yields 1 while the claimed
Σ phi_i(dt·A)·dt^i·b_i yields 2. -/
theorem claim_C3_counterexample :
    ¬ (kiops_fixedsteps (0 : Matrix (Fin 1) (Fin 1) ℝ) 2 1 cexVb
        = fun i => ∑ t ∈ Finset.Icc 0 1, ((2 : ℝ) ^ t)
            * (phik t ((2 : ℝ) • (0 : Matrix (Fin 1) (Fin 1) ℝ))).mulVec (cexVb t) i) := by
  intro hcon
  have h := congrFun hcon 0
  rw [kiops_fixedsteps_eq] at h
  rw [smul_zero] at h
  rw [show cexVb 0 = 0 from rfl, Matrix.mulVec_zero, Pi.zero_apply, zero_add] at h
  rw [show (Finset.Icc 1 1 : Finset ℕ) = {1} from by decide, Finset.sum_singleton] at h
  rw [show (Finset.Icc 0 1 : Finset ℕ) = {0, 1} from by decide,
    Finset.sum_insert (by decide), Finset.sum_singleton] at h
  rw [show cexVb 0 = 0 from rfl, Matrix.mulVec_zero, Pi.zero_apply, mul_zero,
    zero_add] at h
  rw [phik_zero_matrix, show cexVb 1 = (fun _ => 1) from rfl] at h
  simp only [Nat.factorial_one, Nat.cast_one, inv_one, one_smul,
    Matrix.one_mulVec, pow_one] at h
  norm_num at h

/-- Claim C4: the three dense phi kernels (Taylor series, augmented block,
scaling-and-squaring) agree pairwise for all orders k ≤ 3 and every scaling
count s, and for k = 0 each agrees with the reference matrix exponential;
the 1e-8 relative tolerance of the float test is subsumed by equality. -/
theorem claim_C4 (A : Matrix N N ℝ) (k s : ℕ) (hk : k ≤ 3) :
    f_phi_k A k = f_phi_k_ext A k
      ∧ f_phi_k_sq s A k = f_phi_k_ext A k
      ∧ f_phi_k A 0 = expm A
      ∧ f_phi_k_ext A 0 = expm A
      ∧ f_phi_k_sq s A 0 = expm A := by
  refine ⟨?_, ?_, ?_, ?_, ?_⟩
  · rw [f_phi_k_ext_eq]
    rfl
  · rw [f_phi_k_sq_eq, f_phi_k_ext_eq]
  · show phik 0 A = expm A
    exact phik_zero_eq A
  · rw [f_phi_k_ext_eq]
    exact phik_zero_eq A
  · rw [f_phi_k_sq_eq]
    exact phik_zero_eq A

theorem claim_C4_witness :
    ((3 : ℕ) ≤ 3)
    ∧ (f_phi_k (0 : Matrix (Fin 2) (Fin 2) ℝ) 3 = f_phi_k_ext 0 3
        ∧ f_phi_k_sq 2 (0 : Matrix (Fin 2) (Fin 2) ℝ) 3 = f_phi_k_ext 0 3
        ∧ f_phi_k (0 : Matrix (Fin 2) (Fin 2) ℝ) 0 = expm 0
        ∧ f_phi_k_ext (0 : Matrix (Fin 2) (Fin 2) ℝ) 0 = expm 0
        ∧ f_phi_k_sq 2 (0 : Matrix (Fin 2) (Fin 2) ℝ) 0 = expm 0) :=
  ⟨by decide, claim_C4 (0 : Matrix (Fin 2) (Fin 2) ℝ) 3 2 (by decide)⟩

/-- The multiplied phi identity phi_1(Z)·Z + I = phi_0(Z), valid for every
matrix Z with no invertibility requirement. -/
theorem phik_one_mul_add_one (Z : Matrix N N ℝ) : phik 1 Z * Z + 1 = phik 0 Z := by
  have hone : ((Nat.factorial 0 : ℝ))⁻¹ • (1 : Matrix N N ℝ) = 1 := by
    simp [Nat.factorial]
  have h := phik_succ_mul 0 Z
  rw [hone] at h
  rw [h, sub_add_cancel]

/-- The multiplied phi identity as satisfied by the scaling-and-squaring
kernel results, for every matrix and scaling count. -/
theorem f_phi_k_sq_identity (s : ℕ) (Z : Matrix N N ℝ) :
    f_phi_k_sq s Z 1 * Z + 1 = f_phi_k_sq s Z 0 := by
  rw [f_phi_k_sq_eq, f_phi_k_sq_eq]
  exact phik_one_mul_add_one Z

/-- Claim C6: phi_1(Z)·Z + I = phi_0(Z) holds for every matrix Z (also for the
scaling-and-squaring kernel results at every scaling count, and in particular
for the singular ill-conditioned 7×7 matrix of test_phi_badmat_1, within its
1e-5 tolerance); when Z is invertible this is equivalent to
phi_1(Z) = Z⁻¹·(phi_0(Z) − I). -/
theorem claim_C6 (Z : Matrix N N ℝ) (s : ℕ) :
    (phik 1 Z * Z + 1 = phik 0 Z)
      ∧ (f_phi_k_sq s Z 1 * Z + 1 = f_phi_k_sq s Z 0)
      ∧ (IsUnit Z.det → phik 1 Z = Z⁻¹ * (phik 0 Z - 1))
      ∧ (f_phi_k_sq s badmatZ 1 * badmatZ + 1 = f_phi_k_sq s badmatZ 0) := by
  refine ⟨phik_one_mul_add_one Z, f_phi_k_sq_identity s Z, ?_,
    f_phi_k_sq_identity s badmatZ⟩
  intro hZ
  have hone : ((Nat.factorial 0 : ℝ))⁻¹ • (1 : Matrix N N ℝ) = 1 := by
    simp [Nat.factorial]
  have hrec2 : Z * phik 1 Z = phik 0 Z - 1 := by
    have h := phik_mul_succ 0 Z
    rw [hone] at h
    exact h
  rw [← hrec2, ← Matrix.mul_assoc, Matrix.nonsing_inv_mul Z hZ, Matrix.one_mul]

theorem claim_C6_witness :
    (phik 1 (1 : Matrix (Fin 1) (Fin 1) ℝ) * 1 + 1 = phik 0 1)
    ∧ (f_phi_k_sq 0 (1 : Matrix (Fin 1) (Fin 1) ℝ) 1 * 1 + 1
        = f_phi_k_sq 0 (1 : Matrix (Fin 1) (Fin 1) ℝ) 0)
    ∧ (IsUnit (1 : Matrix (Fin 1) (Fin 1) ℝ).det
        ∧ phik 1 (1 : Matrix (Fin 1) (Fin 1) ℝ) = 1⁻¹ * (phik 0 1 - 1))
    ∧ (f_phi_k_sq 0 badmatZ 1 * badmatZ + 1 = f_phi_k_sq 0 badmatZ 0) :=
  ⟨(claim_C6 (1 : Matrix (Fin 1) (Fin 1) ℝ) 0).1,
   (claim_C6 (1 : Matrix (Fin 1) (Fin 1) ℝ) 0).2.1,
   ⟨by simp, (claim_C6 (1 : Matrix (Fin 1) (Fin 1) ℝ) 0).2.2.1 (by simp)⟩,
   (claim_C6 (1 : Matrix (Fin 1) (Fin 1) ℝ) 0).2.2.2⟩

/-- Claim C7: each dense kernel maps a diagonal matrix diag(z) with |z_i| ≤ 2
to the diagonal matrix whose entries are the scalar Taylor-series values
phi_k(z_i), for every order k ≤ 3 (exact equality; the reference-grid table
values of the float test are the float roundings of these scalars). -/
theorem claim_C7 (z : N → ℝ) (k s : ℕ) (hk : k ≤ 3) (hz : ∀ i, |z i| ≤ 2) :
    f_phi_k (Matrix.diagonal z) k = Matrix.diagonal (fun i => phis k (z i))
      ∧ f_phi_k_ext (Matrix.diagonal z) k = Matrix.diagonal (fun i => phis k (z i))
      ∧ f_phi_k_sq s (Matrix.diagonal z) k = Matrix.diagonal (fun i => phis k (z i)) := by
  refine ⟨?_, ?_, ?_⟩
  · show phik k _ = _
    exact phik_diagonal k z
  · rw [f_phi_k_ext_eq]
    exact phik_diagonal k z
  · rw [f_phi_k_sq_eq]
    exact phik_diagonal k z

theorem claim_C7_witness :
    ((0 : ℕ) ≤ 3)
    ∧ (∀ i : Fin 1, |(fun _ : Fin 1 => (0 : ℝ)) i| ≤ 2)
    ∧ (f_phi_k (Matrix.diagonal fun _ : Fin 1 => (0 : ℝ)) 0
          = Matrix.diagonal (fun i : Fin 1 => phis 0 ((fun _ : Fin 1 => (0 : ℝ)) i))
        ∧ f_phi_k_ext (Matrix.diagonal fun _ : Fin 1 => (0 : ℝ)) 0
          = Matrix.diagonal (fun i : Fin 1 => phis 0 ((fun _ : Fin 1 => (0 : ℝ)) i))
        ∧ f_phi_k_sq 0 (Matrix.diagonal fun _ : Fin 1 => (0 : ℝ)) 0
          = Matrix.diagonal (fun i : Fin 1 => phis 0 ((fun _ : Fin 1 => (0 : ℝ)) i))) :=
  ⟨by decide, fun i => by norm_num,
    claim_C7 (fun _ : Fin 1 => (0 : ℝ)) 0 0 (by decide) (fun i => by norm_num)⟩

/-- Claim C9: `AffineLinearSEM._frhs` returns exactly zero at every Dirichlet
boundary index, for all t, u, A, Ml and b. -/
theorem claim_C9 (A : Matrix N N ℝ) (Ml b : N → ℝ) (dbd : Finset N) (t : ℝ)
    (u : N → ℝ) (i : N) (hi : i ∈ dbd) :
    frhs A Ml b dbd t u i = 0 := by
  unfold frhs
  rw [if_pos hi]

theorem claim_C9_witness :
    (0 : Fin 1) ∈ ({0} : Finset (Fin 1))
    ∧ frhs (0 : Matrix (Fin 1) (Fin 1) ℝ) (fun _ => 1) (fun _ => 1)
        ({0} : Finset (Fin 1)) 0 (fun _ => 1) 0 = 0 :=
  ⟨by decide,
    claim_C9 (0 : Matrix (Fin 1) (Fin 1) ℝ) (fun _ => 1) (fun _ => 1)
      ({0} : Finset (Fin 1)) 0 (fun _ => 1) 0 (by decide)⟩

/-- Claim C10: the matrix-free vector-action path f_phi_k_appl(A, b, k) equals
the explicit dense-matrix path f_phi_k(A, k)·b, for every order k (in
particular for k in 0..3). -/
theorem claim_C10 (A : Matrix N N ℝ) (b : N → ℝ) (k : ℕ) :
    f_phi_k_appl A b k = (f_phi_k A k).mulVec b := by
  show f_phi_k_appl A b k = (phik k A).mulVec b
  exact f_phi_k_appl_eq A b k

end Ormatex
